import Mathlib

/-!
Shallow embedding of the URL-resolution core of the "Open in GitHub"
editor extension (src/extension.js): remote-URL normalization, the
repository-URL priority order, git-reference resolution, relative-path
computation, file-link construction and commit-message PR-number
extraction.  The git / editor collaborators (child-process queries,
configuration store) are modelled as explicit input data; the string
and pattern logic is translated from the JavaScript source.
-/

namespace OpenInGithub

/-- The characters of the host marker `github.com`, the literal that all
the source regexes test for. -/
def ghHost : List Char := ['g', 'i', 't', 'h', 'u', 'b', '.', 'c', 'o', 'm']

/-- Case-sensitive literal match: `stripExact p cs` returns `some rest`
when `cs = p ++ rest`, `none` otherwise. -/
def stripExact : List Char → List Char → Option (List Char)
  | [], cs => some cs
  | _ :: _, [] => none
  | p :: ps, c :: cs => if c = p then stripExact ps cs else none

/-- Substring occurrence of the host marker: embeds the test
`/github\.com/.test(url)` (leftmost scan for the literal). -/
def hasGhHost : List Char → Bool
  | [] => false
  | c :: cs => (stripExact ghHost (c :: cs)).isSome || hasGhHost cs

/-- `isGitHubUrl` from src/extension.js: falsy url gives `false`,
otherwise test whether `github.com` occurs in the string. -/
def isGitHubUrl (url : String) : Bool :=
  if url = "" then false else hasGhHost url.data

/-- Decides whether `cs` is exactly matched by the regex tail
`(?:\.git)?\/?$` of `normalizeGitHubUrl`'s pattern. -/
def tailSuffixOk (cs : List Char) : Bool :=
  cs == [] || cs == ['/'] || cs == ['.', 'g', 'i', 't'] ||
    cs == ['.', 'g', 'i', 't', '/']

/-- The lazy group `([^\/]+?)(?:\.git)?\/?$`: returns the capture (the
shortest nonempty slash-free run whose remainder is an admissible
suffix), or `none` when the whole tail cannot match. -/
def ghTail : List Char → Option (List Char)
  | [] => none
  | c :: cs =>
    if c = '/' then none
    else if tailSuffixOk cs then some [c]
    else (ghTail cs).map (fun r => c :: r)

/-- One attempt of the regex
`github\.com[:/]([^\/]+)\/([^\/]+?)(?:\.git)?\/?$` at the head of `cs`:
the host literal, a `:` or `/` separator, the greedy slash-free org
capture, a `/`, then the lazy repo capture against the end of string. -/
def ghMatchAt (cs : List Char) : Option (List Char × List Char) :=
  match stripExact ghHost cs with
  | none => none
  | some rest =>
    match rest with
    | [] => none
    | sep :: rest2 =>
      if sep = ':' || sep = '/' then
        let org := rest2.takeWhile (fun c => c != '/')
        let rest3 := rest2.dropWhile (fun c => c != '/')
        if org == [] then none
        else
          match rest3 with
          | '/' :: tl =>
            match ghTail tl with
            | some repo => some (org, repo)
            | none => none
          | _ => none
      else none

/-- Leftmost-match scan of the normalization regex over the string. -/
def ghScan : List Char → Option (List Char × List Char)
  | [] => none
  | c :: cs =>
    match ghMatchAt (c :: cs) with
    | some r => some r
    | none => ghScan cs

/-- `normalizeGitHubUrl` from src/extension.js: falsy url gives `null`;
otherwise the first match of the org/repo-at-end pattern is rebuilt as
`https://github.com/<org>/<repo>`, and no match gives `null`. -/
def normalizeGitHubUrl (url : String) : Option String :=
  if url = "" then none
  else
    match ghScan url.data with
    | some (org, repo) =>
      some ("https://github.com/" ++ String.mk org ++ "/" ++ String.mk repo)
    | none => none

example : ("ab".data = ['a', 'b']) := rfl

example : normalizeGitHubUrl "git@github.com:acme/widgets.git" =
    some "https://github.com/acme/widgets" := by decide

example : normalizeGitHubUrl "https://github.com/acme/widgets" =
    some "https://github.com/acme/widgets" := by decide

example : normalizeGitHubUrl "ssh://git@github.com/acme/widgets.git" =
    some "https://github.com/acme/widgets" := by decide

example : normalizeGitHubUrl "https://github.com/acme/widgets/" =
    some "https://github.com/acme/widgets" := by decide

example : normalizeGitHubUrl "https://github.com/acme" = none := by decide

example : normalizeGitHubUrl "https://gitlab.com/a/b" = none := by decide

example : normalizeGitHubUrl "https://github.com/acme/widgets.git.git" =
    some "https://github.com/acme/widgets.git" := by decide

example : isGitHubUrl "https://github.com/a/b" = true := by decide

example : isGitHubUrl "https://gitlab.com/a/b" = false := by decide

/-! ## Repository-URL priority order (`getGitHubRepositoryUrl`) -/

/-- Inputs of one `getGitHubRepositoryUrl` run: the configuration value
(`config.get('repositoryUrl')`, `none` when unset), the result of
`getRemoteUrl` per remote name (`none` when the git query fails), and
the result of `getAllRemotes` (`[]` on failure). -/
structure RemoteEnv where
  configUrl : Option String
  remoteQuery : String → Option String
  allRemotes : List String

/-- One priority step of `getGitHubRepositoryUrl`: query the named
remote; when the URL is truthy, passes `isGitHubUrl` and normalizes to
a truthy value, return the normalized URL, otherwise fall through. -/
def candidateFromRemote (query : String → Option String) (name : String) :
    Option String :=
  match query name with
  | none => none
  | some u =>
    if u != "" && isGitHubUrl u then
      match normalizeGitHubUrl u with
      | some n => if n != "" then some n else none
      | none => none
    else none

/-- Step 4 of `getGitHubRepositoryUrl`: the `for` loop over all remote
names, returning the first normalized GitHub URL. -/
def firstGitHubRemote (query : String → Option String) :
    List String → Option String
  | [] => none
  | r :: rest =>
    match candidateFromRemote query r with
    | some n => some n
    | none => firstGitHubRemote query rest

/-- Steps 2–5 of `getGitHubRepositoryUrl`: upstream, then origin, then
every remote in listed order, else `null`. -/
def remoteLookup (query : String → Option String) (remotes : List String) :
    Option String :=
  match candidateFromRemote query "upstream" with
  | some n => some n
  | none =>
    match candidateFromRemote query "origin" with
    | some n => some n
    | none => firstGitHubRemote query remotes

/-- `getGitHubRepositoryUrl` from src/extension.js: a truthy configured
`repositoryUrl` is returned verbatim; otherwise the remote priority
chain runs. -/
def getGitHubRepositoryUrl (env : RemoteEnv) : Option String :=
  match env.configUrl with
  | some s => if s != "" then some s else remoteLookup env.remoteQuery env.allRemotes
  | none => remoteLookup env.remoteQuery env.allRemotes

/-! ## Git reference resolution (`getGitRef`) -/

/-- The JavaScript whitespace class: the characters stripped by
`String.prototype.trim` and matched by `\s`. -/
def isJsSpace (c : Char) : Bool :=
  c = ' ' || c = '\t' || c = '\n' || c = '\r' || c = '\x0b' || c = '\x0c' ||
  c = '\u00A0' || c = '\u1680' || ('\u2000' ≤ c && c ≤ '\u200A') ||
  c = '\u2028' || c = '\u2029' || c = '\u202F' || c = '\u205F' ||
  c = '\u3000' || c = '\uFEFF'

/-- JavaScript `String.prototype.trim`: strip leading and trailing
whitespace. -/
def jsTrim (s : String) : String :=
  String.mk (((s.data.dropWhile isJsSpace).reverse.dropWhile isJsSpace).reverse)

/-- Raw outputs of the two git queries `getGitRef` runs: `git branch
--show-current` and `git rev-parse HEAD` (`none` models a failed
command). -/
structure GitState where
  branchQuery : Option String
  headQuery : Option String

/-- `getGitRef` from src/extension.js: with `useCommitHash` the trimmed
HEAD hash; otherwise the trimmed branch name when truthy, falling back
to the HEAD hash; a needed failing HEAD query throws
`Failed to get git reference`. -/
def getGitRef (s : GitState) (useCommitHash : Bool) : Except String String :=
  if useCommitHash then
    match s.headQuery with
    | some out => Except.ok (jsTrim out)
    | none => Except.error "Failed to get git reference"
  else
    match s.branchQuery with
    | some out =>
      if jsTrim out != "" then Except.ok (jsTrim out)
      else
        match s.headQuery with
        | some out2 => Except.ok (jsTrim out2)
        | none => Except.error "Failed to get git reference"
    | none =>
      match s.headQuery with
      | some out2 => Except.ok (jsTrim out2)
      | none => Except.error "Failed to get git reference"

example : getGitRef ⟨some "feature-x\n", some "abc\n"⟩ false =
    Except.ok "feature-x" := rfl

example : getGitRef ⟨some "\n", some "abc\n"⟩ false =
    Except.ok "abc" := rfl

example : getGitRef ⟨none, none⟩ false =
    Except.error "Failed to get git reference" := rfl

/-! ## File-link construction (`constructGitHubUrl`) -/

/-- `constructGitHubUrl` from src/extension.js: the `#L` anchor is
appended exactly when the optional line number is truthy (non-null and
nonzero). -/
def constructGitHubUrl (repositoryUrl gitRef relativePath : String)
    (lineNumber : Option Nat) : String :=
  let url := repositoryUrl ++ "/blob/" ++ gitRef ++ "/" ++ relativePath
  match lineNumber with
  | some n => if n ≠ 0 then url ++ "#L" ++ toString n else url
  | none => url

example : constructGitHubUrl "https://github.com/acme/widgets" "main"
    "src/index.ts" none =
    "https://github.com/acme/widgets/blob/main/src/index.ts" := by decide

example : constructGitHubUrl "https://github.com/acme/widgets" "main"
    "src/index.ts" (some 42) =
    "https://github.com/acme/widgets/blob/main/src/index.ts#L42" := by decide

/-! ## Relative path (`getRelativePath`) -/

/-- Split a character list at every `/`. -/
def splitOnSlash : List Char → List (List Char)
  | [] => [[]]
  | c :: cs =>
    if c = '/' then [] :: splitOnSlash cs
    else
      match splitOnSlash cs with
      | s :: rest => (c :: s) :: rest
      | [] => [[c]]

/-- Join path segments with `/`. -/
def joinSegs (segs : List (List Char)) : List Char :=
  List.intercalate ['/'] segs

/-- Segment-difference step of path relativization: drop the common
leading segments, then one `..` per remaining base segment followed by
the remaining target segments. -/
def relParts : List (List Char) → List (List Char) → List (List Char)
  | [], t => t
  | f, [] => f.map (fun _ => ['.', '.'])
  | f :: fs, t :: ts =>
    if f == t then relParts fs ts
    else (f :: fs).map (fun _ => ['.', '.']) ++ (t :: ts)

/-- Modelled from the spec: the `path.relative` collaborator of
`getRelativePath` (Node's path module, not part of src/), computing
"FilePath expressed relative to RepositoryRoot"; for resolved absolute
paths it drops the common leading segments and emits `..` for each
remaining base segment. -/
def pathRelative (base target : List Char) : List Char :=
  joinSegs (relParts ((splitOnSlash base).filter (fun s => s != []))
                     ((splitOnSlash target).filter (fun s => s != [])))

/-- `getRelativePath` from src/extension.js:
`path.relative(gitRoot, filePath).replace(/\\/g, '/')`. -/
def getRelativePath (filePath gitRoot : String) : String :=
  String.mk ((pathRelative gitRoot.data filePath.data).map
    (fun c => if c = '\\' then '/' else c))

example : getRelativePath "/repo/src/a.ts" "/repo" = "src/a.ts" := by decide

example : getRelativePath "/repo/x" "/repo/y" = "../x" := by decide

/-! ## PR-number extraction (`getPRNumberFromCommit`) -/

/-- Case-insensitive literal match (the `/i` flag): `icStrip p cs`
returns `some rest` when lowering the head of `cs` gives the lowercase
pattern `p`. -/
def icStrip : List Char → List Char → Option (List Char)
  | [], cs => some cs
  | _ :: _, [] => none
  | p :: ps, c :: cs => if c.toLower = p then icStrip ps cs else none

/-- The literal of pattern 1, lowercase. -/
def mergeLit : List Char := "merge pull request #".data

/-- One attempt of `/Merge pull request #(\d+)/i` at the head: the
phrase case-insensitively, then at least one digit; the capture is the
maximal digit run. -/
def tryMergeAt (cs : List Char) : Option (List Char) :=
  match icStrip mergeLit cs with
  | none => none
  | some rest =>
    let ds := rest.takeWhile Char.isDigit
    if ds == [] then none else some ds

/-- Leftmost-match scan of pattern 1. -/
def scanMerge : List Char → Option (List Char)
  | [] => none
  | c :: cs =>
    match tryMergeAt (c :: cs) with
    | some d => some d
    | none => scanMerge cs

/-- The closing-keyword alternatives of pattern 2
`(?:fixes?|closes?|resolves?|refs?)` in the engine's trial order: the
`?` quantifies only the trailing `s`, so `fixes?` matches `fixes` and
then `fixe` on backtracking — never bare `fix`. -/
def prKeywords : List (List Char) :=
  ["fixes".data, "fixe".data, "closes".data, "close".data,
   "resolves".data, "resolve".data, "refs".data, "ref".data]

/-- The `[\s:]` class of pattern 2. -/
def isSpColon (c : Char) : Bool := isJsSpace c || c = ':'

/-- One keyword alternative of pattern 2 at the head: the keyword
case-insensitively, the maximal `[\s:]*` run, `#`, then at least one
digit; the capture is the maximal digit run. -/
def tryKeyword (k cs : List Char) : Option (List Char) :=
  match icStrip k cs with
  | none => none
  | some rest =>
    match rest.dropWhile isSpColon with
    | '#' :: rest2 =>
      let ds := rest2.takeWhile Char.isDigit
      if ds == [] then none else some ds
    | _ => none

/-- Alternation backtracking of pattern 2 at one position. -/
def tryKeywordsAt : List (List Char) → List Char → Option (List Char)
  | [], _ => none
  | k :: ks, cs =>
    match tryKeyword k cs with
    | some d => some d
    | none => tryKeywordsAt ks cs

/-- Leftmost-match scan of pattern 2
`/(?:fixes?|closes?|resolves?|refs?)[\s:]*#(\d+)/i`. -/
def scanKeyword : List Char → Option (List Char)
  | [] => none
  | c :: cs =>
    match tryKeywordsAt prKeywords (c :: cs) with
    | some d => some d
    | none => scanKeyword cs

/-- The closing keywords as the specification words them
("fixes/fix/closes/close/resolves/resolve/refs/ref"): it lists bare
`fix`, which the source regex `fixes?` can never match.  Declared only
to compare the spec's reading of pattern 2 with `prKeywords`, the
engine's actual alternatives. -/
def specKeywords : List (List Char) :=
  ["fixes".data, "fix".data, "closes".data, "close".data,
   "resolves".data, "resolve".data, "refs".data, "ref".data]

/-- Leftmost-match scan of pattern 2 as the specification words it,
with `specKeywords` in place of the engine's alternatives. -/
def scanKeywordSpec : List Char → Option (List Char)
  | [] => none
  | c :: cs =>
    match tryKeywordsAt specKeywords (c :: cs) with
    | some d => some d
    | none => scanKeywordSpec cs

/-- One attempt of pattern 3 `/#(\d+)/` at the head. -/
def tryBareAt (cs : List Char) : Option (List Char) :=
  match cs with
  | '#' :: rest =>
    let ds := rest.takeWhile Char.isDigit
    if ds == [] then none else some ds
  | _ => none

/-- Leftmost-match scan of pattern 3. -/
def scanBare : List Char → Option (List Char)
  | [] => none
  | c :: cs =>
    match tryBareAt (c :: cs) with
    | some d => some d
    | none => scanBare cs

/-- The pattern cascade of `getPRNumberFromCommit`: pattern 1, then
pattern 2, then pattern 3; the first match's capture is returned. -/
def extractPRNumber (msg : String) : Option String :=
  match scanMerge msg.data with
  | some d => some (String.mk d)
  | none =>
    match scanKeyword msg.data with
    | some d => some (String.mk d)
    | none =>
      match scanBare msg.data with
      | some d => some (String.mk d)
      | none => none

/-- `getPRNumberFromCommit` from src/extension.js, with the `git log`
query modelled as its optional output (`none` when the command fails,
which the catch turns into `null`). -/
def getPRNumberFromCommit (logOutput : Option String) : Option String :=
  match logOutput with
  | none => none
  | some msg => extractPRNumber msg

example : extractPRNumber "Merge pull request #10 from acme/widgets\n\nsee #99" =
    some "10" := by decide

example : extractPRNumber "fixes #123 and stuff" = some "123" := by decide

example : extractPRNumber "a prefix #5" = some "5" := by decide

example : extractPRNumber "Closes: #7" = some "7" := by decide

example : extractPRNumber "nothing here" = none := by decide

example : extractPRNumber "stray #99 then Merge pull request #10" =
    some "10" := by decide

example : extractPRNumber "fixe #5" = some "5" := by decide

example : extractPRNumber "see #9 then fix #5" = some "9" := by decide

/-! ## Helper lemmas -/

/-- A URL that passes `isGitHubUrl` is nonempty. -/
lemma ne_empty_of_isGitHubUrl (u : String) (h : isGitHubUrl u = true) :
    u ≠ "" := by
  intro he
  subst he
  simp [isGitHubUrl] at h

/-- A successful normalization result is nonempty. -/
lemma normalize_ne_empty (u n : String) (h : normalizeGitHubUrl u = some n) :
    n ≠ "" := by
  unfold normalizeGitHubUrl at h
  by_cases hu : u = ""
  · simp [hu] at h
  · rw [if_neg hu] at h
    cases hscan : ghScan u.data with
    | none => rw [hscan] at h; exact absurd h (by simp)
    | some p =>
      obtain ⟨org, repo⟩ := p
      rw [hscan] at h
      have hn : n = "https://github.com/" ++ String.mk org ++ "/" ++ String.mk repo := by
        injection h with h'; exact h'.symm
      intro he
      rw [he] at hn
      have hd := congrArg String.data hn
      rw [String.data_append, String.data_append, String.data_append] at hd
      have h19 : ("https://github.com/").data =
          'h' :: "ttps://github.com/".data := rfl
      rw [h19] at hd
      simp at hd

/-! ## C1: configured repositoryUrl has top priority -/

/-- C1: whenever the `repositoryUrl` configuration value is present and
nonempty, `getGitHubRepositoryUrl` returns exactly that string,
whatever the remotes hold. -/
theorem configUrl_top_priority (env : RemoteEnv) (s : String)
    (hc : env.configUrl = some s) (hs : s ≠ "") :
    getGitHubRepositoryUrl env = some s := by
  simp [getGitHubRepositoryUrl, hc, hs]

/-- Witness for C1, with an origin remote pointing elsewhere. -/
theorem configUrl_top_priority_inst :
    getGitHubRepositoryUrl
      ⟨some "https://github.com/acme/widgets",
       (fun n => if n = "origin" then some "https://github.com/other/repo" else none),
       ["origin"]⟩ = some "https://github.com/acme/widgets" :=
  configUrl_top_priority _ _ rfl (by decide)

/-! ## C9: an empty configured string is skipped -/

/-- C9: a `repositoryUrl` configuration value that is the empty string
behaves exactly like an absent one — resolution falls through to the
remote priority chain. -/
theorem emptyConfig_as_absent (q : String → Option String) (rs : List String) :
    getGitHubRepositoryUrl ⟨some "", q, rs⟩ =
      getGitHubRepositoryUrl ⟨none, q, rs⟩ := rfl

/-! ## C2: upstream before origin before the remaining remotes -/

/-- C2: with no configuration value set, a recognized upstream URL wins
(normalized), origin is consulted only when upstream yields nothing
recognized, and the enumeration of all remotes only after both. -/
theorem upstream_before_origin (env : RemoteEnv) (hc : env.configUrl = none) :
    (∀ u n, env.remoteQuery "upstream" = some u → isGitHubUrl u = true →
      normalizeGitHubUrl u = some n → getGitHubRepositoryUrl env = some n) ∧
    (candidateFromRemote env.remoteQuery "upstream" = none →
      ∀ u n, env.remoteQuery "origin" = some u → isGitHubUrl u = true →
        normalizeGitHubUrl u = some n → getGitHubRepositoryUrl env = some n) ∧
    (candidateFromRemote env.remoteQuery "upstream" = none →
      candidateFromRemote env.remoteQuery "origin" = none →
      getGitHubRepositoryUrl env =
        firstGitHubRemote env.remoteQuery env.allRemotes) := by
  refine ⟨?_, ?_, ?_⟩
  · intro u n hq hgh hn
    have hu := ne_empty_of_isGitHubUrl u hgh
    have hne := normalize_ne_empty u n hn
    simp [getGitHubRepositoryUrl, hc, remoteLookup, candidateFromRemote,
      hq, hgh, hn, hu, hne]
  · intro hup u n hq hgh hn
    have hu := ne_empty_of_isGitHubUrl u hgh
    have hne := normalize_ne_empty u n hn
    simp only [getGitHubRepositoryUrl, hc, remoteLookup, hup]
    simp [candidateFromRemote, hq, hgh, hn, hu, hne]
  · intro hup hor
    simp [getGitHubRepositoryUrl, hc, remoteLookup, hup, hor]

/-- Witness for C2 at the spec's example: upstream and origin both on
GitHub, upstream (normalized) wins. -/
theorem upstream_before_origin_inst :
    getGitHubRepositoryUrl
      ⟨none,
       (fun n => if n = "upstream" then some "https://github.com/acme/upstream-repo"
                 else if n = "origin" then some "https://github.com/acme/fork"
                 else none),
       ["origin", "upstream"]⟩ = some "https://github.com/acme/upstream-repo" :=
  (upstream_before_origin _ rfl).1 "https://github.com/acme/upstream-repo"
    "https://github.com/acme/upstream-repo" (by decide) (by decide) (by decide)

/-! ## C3: shape of the file link -/

/-- C3: the file link is `<repositoryUrl>/blob/<ref>/<relativePath>`,
with `#L<n>` appended exactly when a (1-based, hence positive) line
number is supplied; checked also at the spec's example values. -/
theorem constructUrl_shape :
    (∀ u r p : String,
      constructGitHubUrl u r p none = u ++ "/blob/" ++ r ++ "/" ++ p) ∧
    (∀ (u r p : String) (n : Nat), 1 ≤ n →
      constructGitHubUrl u r p (some n) =
        u ++ "/blob/" ++ r ++ "/" ++ p ++ "#L" ++ toString n) ∧
    constructGitHubUrl "https://github.com/acme/widgets" "main" "src/index.ts"
      none = "https://github.com/acme/widgets/blob/main/src/index.ts" ∧
    constructGitHubUrl "https://github.com/acme/widgets" "main" "src/index.ts"
      (some 42) =
      "https://github.com/acme/widgets/blob/main/src/index.ts#L42" := by
  refine ⟨fun u r p => rfl, fun u r p n hn => ?_, by decide, by decide⟩
  have h0 : n ≠ 0 := by omega
  simp [constructGitHubUrl, h0]

/-- Witness for C3 at line 42. -/
theorem constructUrl_shape_inst :
    constructGitHubUrl "https://github.com/acme/widgets" "main" "src/index.ts"
      (some 42) = "https://github.com/acme/widgets" ++ "/blob/" ++ "main" ++
      "/" ++ "src/index.ts" ++ "#L" ++ toString 42 :=
  constructUrl_shape.2.1 _ _ _ 42 (by decide)

/-! ## C10: line number 0 yields no anchor -/

/-- C10: a supplied line number of 0 is treated like no line number at
all, and a nonzero one appends exactly the `#L<n>` anchor. -/
theorem lineZero_no_anchor :
    (∀ u r p : String,
      constructGitHubUrl u r p (some 0) = constructGitHubUrl u r p none) ∧
    (∀ (u r p : String) (n : Nat), n ≠ 0 →
      constructGitHubUrl u r p (some n) =
        constructGitHubUrl u r p none ++ "#L" ++ toString n) := by
  constructor
  · intro u r p; simp [constructGitHubUrl]
  · intro u r p n hn; simp [constructGitHubUrl, hn]

/-- Witness for C10's nonzero side. -/
theorem lineZero_no_anchor_inst :
    constructGitHubUrl "u" "r" "p" (some 7) =
      constructGitHubUrl "u" "r" "p" none ++ "#L" ++ toString 7 :=
  lineZero_no_anchor.2 _ _ _ 7 (by decide)

/-! ## C4: branch name first, commit hash as fallback -/

/-- C4: with `useCommitHash = false`, a truthy trimmed branch name is
returned; when the branch query fails or trims to empty, the trimmed
HEAD hash is returned; and the `Failed to get git reference` error
occurs exactly when that needed HEAD query itself fails. -/
theorem gitRef_branch_fallback (s : GitState) :
    (∀ b, s.branchQuery = some b → jsTrim b ≠ "" →
      getGitRef s false = Except.ok (jsTrim b)) ∧
    ((s.branchQuery = none ∨ ∃ b, s.branchQuery = some b ∧ jsTrim b = "") →
      ∀ h, s.headQuery = some h → getGitRef s false = Except.ok (jsTrim h)) ∧
    (getGitRef s false = Except.error "Failed to get git reference" ↔
      ((s.branchQuery = none ∨ ∃ b, s.branchQuery = some b ∧ jsTrim b = "") ∧
        s.headQuery = none)) := by
  obtain ⟨bq, hq⟩ := s
  refine ⟨?_, ?_, ?_⟩
  · intro b hb htb
    cases bq with
    | none => exact absurd hb (by simp)
    | some b' =>
      have hbb : b' = b := by injection hb
      subst hbb
      simp [getGitRef, htb]
  · rintro (hb | ⟨b, hb, htb⟩) h hh
    · cases bq with
      | none => cases hq with
        | none => exact absurd hh (by simp)
        | some h' =>
          have : h' = h := by injection hh
          subst this; simp [getGitRef]
      | some b' => exact absurd hb (by simp)
    · cases bq with
      | none => exact absurd hb (by simp)
      | some b' =>
        have hbb : b' = b := by injection hb
        subst hbb
        cases hq with
        | none => exact absurd hh (by simp)
        | some h' =>
          have : h' = h := by injection hh
          subst this; simp [getGitRef, htb]
  · cases bq with
    | none =>
      cases hq with
      | none => simp [getGitRef]
      | some h' => simp [getGitRef]
    | some b' =>
      by_cases htb : jsTrim b' = ""
      · cases hq with
        | none => simp [getGitRef, htb]
        | some h' => simp [getGitRef, htb]
      · cases hq with
        | none => simp [getGitRef, htb]
        | some h' => simp [getGitRef, htb]

/-- Witness for C4: a live branch, a trimmed-empty branch falling back
to HEAD, and the fatal case. -/
theorem gitRef_branch_fallback_inst :
    getGitRef ⟨some "feature-x\n", some "abc123\n"⟩ false =
      Except.ok "feature-x" ∧
    getGitRef ⟨some "\n", some "abc123\n"⟩ false = Except.ok "abc123" ∧
    getGitRef ⟨some "\n", none⟩ false =
      Except.error "Failed to get git reference" := by
  refine ⟨?_, ?_, ?_⟩
  · exact ((gitRef_branch_fallback ⟨some "feature-x\n", some "abc123\n"⟩).1
      "feature-x\n" rfl (by decide)).trans
      (congrArg Except.ok (by decide : jsTrim "feature-x\n" = "feature-x"))
  · exact ((gitRef_branch_fallback ⟨some "\n", some "abc123\n"⟩).2.1
      (Or.inr ⟨"\n", rfl, by decide⟩) "abc123\n" rfl).trans
      (congrArg Except.ok (by decide : jsTrim "abc123\n" = "abc123"))
  · exact (gitRef_branch_fallback ⟨some "\n", none⟩).2.2.mpr
      ⟨Or.inr ⟨"\n", rfl, by decide⟩, rfl⟩

/-! ## C5: PR-number pattern precedence -/

/-- C5 counterexample: the claim's keyword list for pattern 2 names
bare `fix`, but the source regex `fixes?` quantifies only the trailing
`s` and so never matches `fix`.  On `see #9 then fix #5` pattern 1
fails and the claim's pattern 2 (`scanKeywordSpec`, the spec-worded
list) matches with capture `5`, so the claim demands `5` — yet the
program's pattern 2 fails and its bare-`#N` fallback returns `9`. -/
theorem prNumber_keyword_cex :
    getPRNumberFromCommit (some "see #9 then fix #5") = some "9" ∧
    scanMerge ("see #9 then fix #5").data = none ∧
    scanKeywordSpec ("see #9 then fix #5").data = some ['5'] ∧
    scanKeyword ("see #9 then fix #5").data = none :=
  ⟨by decide, by decide, by decide, by decide⟩

/-- C5 amended: `getPRNumberFromCommit` tries the merge-pull-request
pattern, then the closing-keyword pattern — whose alternatives are
fixes/fixe/closes/close/resolves/resolve/refs/ref, bare `fix` being
unmatched by `fixes?` — then the bare `#N` pattern, in that order,
returning the first capture and `none` when nothing matches; in
particular a message with both `Merge pull request #10` and a stray
`#99` yields `10`, and `fixe #5` resolves to `5` via pattern 2. -/
theorem prNumber_precedence :
    (∀ (msg : String) (d : List Char), scanMerge msg.data = some d →
      getPRNumberFromCommit (some msg) = some (String.mk d)) ∧
    (∀ (msg : String) (d : List Char), scanMerge msg.data = none →
      scanKeyword msg.data = some d →
      getPRNumberFromCommit (some msg) = some (String.mk d)) ∧
    (∀ (msg : String) (d : List Char), scanMerge msg.data = none →
      scanKeyword msg.data = none → scanBare msg.data = some d →
      getPRNumberFromCommit (some msg) = some (String.mk d)) ∧
    (∀ msg : String, scanMerge msg.data = none → scanKeyword msg.data = none →
      scanBare msg.data = none → getPRNumberFromCommit (some msg) = none) ∧
    getPRNumberFromCommit
      (some "Merge pull request #10 from acme/widgets\n\nsee #99") =
      some "10" ∧
    getPRNumberFromCommit (some "fixe #5") = some "5" := by
  refine ⟨?_, ?_, ?_, ?_, by decide, by decide⟩
  · intro msg d h1
    simp [getPRNumberFromCommit, extractPRNumber, h1]
  · intro msg d h1 h2
    simp [getPRNumberFromCommit, extractPRNumber, h1, h2]
  · intro msg d h1 h2 h3
    simp [getPRNumberFromCommit, extractPRNumber, h1, h2, h3]
  · intro msg h1 h2 h3
    simp [getPRNumberFromCommit, extractPRNumber, h1, h2, h3]

/-- Witness for C5's keyword pattern. -/
theorem prNumber_precedence_inst :
    getPRNumberFromCommit (some "fixes #123") = some (String.mk ['1', '2', '3']) :=
  prNumber_precedence.2.1 "fixes #123" ['1', '2', '3'] (by decide) (by decide)

/-! ## Normalization lemmas for C6 and C7 -/

/-- A repo segment whose name itself ends in `.git` after a nonempty
stem; for such segments the lazy capture stops before the suffix. -/
def endsGit (l : List Char) : Prop :=
  ['.', 'g', 'i', 't'] <:+ l ∧ 5 ≤ l.length

instance (l : List Char) : Decidable (endsGit l) := by
  unfold endsGit; infer_instance

lemma data_nil_iff (s : String) : s.data = [] ↔ s = "" := by
  obtain ⟨l⟩ := s
  constructor
  · intro h
    have h2 : l = [] := h
    rw [h2]
  · intro h
    rw [h]

lemma stripExact_self_append (p rest : List Char) :
    stripExact p (p ++ rest) = some rest := by
  induction p with
  | nil => rfl
  | cons c cs ih => simp [stripExact, ih]

lemma takeWhile_noSlash : ∀ (org rest : List Char), '/' ∉ org →
    (org ++ '/' :: rest).takeWhile (fun c => c != '/') = org := by
  intro org
  induction org with
  | nil => intro rest _; simp
  | cons c cs ih =>
    intro rest h
    have hc : c ≠ '/' := fun he => h (he ▸ List.mem_cons_self c cs)
    have ih2 := ih rest (fun hm => h (List.mem_cons_of_mem _ hm))
    simp [List.takeWhile_cons, hc, ih2]

lemma dropWhile_noSlash : ∀ (org rest : List Char), '/' ∉ org →
    (org ++ '/' :: rest).dropWhile (fun c => c != '/') = '/' :: rest := by
  intro org
  induction org with
  | nil => intro rest _; simp
  | cons c cs ih =>
    intro rest h
    have hc : c ≠ '/' := fun he => h (he ▸ List.mem_cons_self c cs)
    have ih2 := ih rest (fun hm => h (List.mem_cons_of_mem _ hm))
    simp [List.dropWhile_cons, hc, ih2]

lemma tailSuffixOk_iff (l : List Char) : tailSuffixOk l = true ↔
    (l = [] ∨ l = ['/'] ∨ l = ['.', 'g', 'i', 't'] ∨
      l = ['.', 'g', 'i', 't', '/']) := by
  simp [tailSuffixOk, or_assoc]

/-- No proper suffix of a slash-free, non-`.git` run, followed by an
admissible regex tail, is itself an admissible regex tail. -/
lemma tailSuffixOk_append_false (t s : List Char) (ht : t ≠ [])
    (hslash : '/' ∉ t) (hdot : t ≠ ['.', 'g', 'i', 't'])
    (hs : tailSuffixOk s = true) :
    tailSuffixOk (t ++ s) = false := by
  have htl : 0 < t.length := List.length_pos.mpr ht
  rcases (tailSuffixOk_iff s).mp hs with rfl | rfl | rfl | rfl
  · rw [List.append_nil]
    by_contra hcon
    rw [Bool.not_eq_false] at hcon
    rcases (tailSuffixOk_iff t).mp hcon with h | h | h | h
    · exact ht h
    · rw [h] at hslash; exact hslash (by decide)
    · exact hdot h
    · rw [h] at hslash; exact hslash (by decide)
  · by_contra hcon
    rw [Bool.not_eq_false] at hcon
    rcases (tailSuffixOk_iff _).mp hcon with h | h | h | h
    · have hl := congrArg List.length h; simp at hl
    · have hl := congrArg List.length h; simp at hl
      exact ht hl
    · have hm : '/' ∈ t ++ ['/'] := by simp
      rw [h] at hm
      exact absurd hm (by decide)
    · have h2 : t ++ ['/'] = ['.', 'g', 'i', 't'] ++ ['/'] := h
      exact hdot (List.append_inj' h2 rfl).1
  · by_contra hcon
    rw [Bool.not_eq_false] at hcon
    rcases (tailSuffixOk_iff _).mp hcon with h | h | h | h
    · have hl := congrArg List.length h; simp at hl
    · have hl := congrArg List.length h; simp at hl
    · have h2 : t ++ ['.', 'g', 'i', 't'] = [] ++ ['.', 'g', 'i', 't'] := h
      exact ht (List.append_inj' h2 rfl).1
    · have h2 : t ++ ['.', 'g', 'i', 't'] = ['.'] ++ ['g', 'i', 't', '/'] := h
      have h3 := (List.append_inj' h2 rfl).2
      simp at h3
  · by_contra hcon
    rw [Bool.not_eq_false] at hcon
    rcases (tailSuffixOk_iff _).mp hcon with h | h | h | h
    · have hl := congrArg List.length h; simp at hl
    · have hl := congrArg List.length h; simp at hl
    · have hl := congrArg List.length h; simp at hl
    · have h2 : t ++ ['.', 'g', 'i', 't', '/'] = [] ++ ['.', 'g', 'i', 't', '/'] := h
      exact ht (List.append_inj' h2 rfl).1

lemma endsGit_cons (c : Char) (cs : List Char) (h : ¬ endsGit (c :: cs)) :
    cs ≠ ['.', 'g', 'i', 't'] ∧ (cs ≠ [] → ¬ endsGit cs) := by
  constructor
  · intro he
    subst he
    exact h ⟨⟨[c], rfl⟩, by simp⟩
  · intro _ hgit
    obtain ⟨⟨t, ht⟩, hlen⟩ := hgit
    refine h ⟨⟨c :: t, by rw [List.cons_append, ht]⟩, ?_⟩
    simp only [List.length_cons]
    omega

/-- The lazy capture over a well-formed repo run followed by an
admissible tail returns exactly the run. -/
lemma ghTail_append : ∀ (repo : List Char), repo ≠ [] → '/' ∉ repo →
    ¬ endsGit repo → ∀ s, tailSuffixOk s = true →
    ghTail (repo ++ s) = some repo := by
  intro repo
  induction repo with
  | nil => intro h; exact absurd rfl h
  | cons c cs ih =>
    intro _ hslash hgit s hs
    have hc : c ≠ '/' := fun he => hslash (he ▸ List.mem_cons_self c cs)
    by_cases hcs : cs = []
    · subst hcs
      simp [ghTail, hc, hs]
    · have hsl2 : '/' ∉ cs := fun hm => hslash (List.mem_cons_of_mem _ hm)
      obtain ⟨hdot, hrec⟩ := endsGit_cons c cs hgit
      have hne : tailSuffixOk (cs ++ s) = false :=
        tailSuffixOk_append_false cs s hcs hsl2 hdot hs
      have ihr : ghTail (cs ++ s) = some cs := ih hcs hsl2 (hrec hcs) s hs
      rw [List.cons_append]
      simp [ghTail, hc, hne, ihr]

/-- The regex attempt right at the host marker, for a well-formed org
run: it reduces to the lazy tail capture. -/
lemma ghMatchAt_host (sep : Char) (org tail : List Char)
    (hsep : sep = ':' ∨ sep = '/') (ho : org ≠ []) (hslash : '/' ∉ org)
    (repo : List Char) (htail : ghTail tail = some repo) :
    ghMatchAt (ghHost ++ sep :: (org ++ '/' :: tail)) = some (org, repo) := by
  have h1 := stripExact_self_append ghHost (sep :: (org ++ '/' :: tail))
  rcases hsep with rfl | rfl <;>
    simp [ghMatchAt, h1, takeWhile_noSlash org tail hslash,
      dropWhile_noSlash org tail hslash, ho, htail]

lemma ghScan_skip (c : Char) (cs : List Char) (h : ghMatchAt (c :: cs) = none) :
    ghScan (c :: cs) = ghScan cs := by
  simp only [ghScan, h]

lemma ghScan_hit (c : Char) (cs : List Char) (r : List Char × List Char)
    (h : ghMatchAt (c :: cs) = some r) : ghScan (c :: cs) = some r := by
  simp only [ghScan, h]

lemma ghMatchAt_ne_g (c : Char) (cs : List Char) (h : c ≠ 'g') :
    ghMatchAt (c :: cs) = none := by
  simp [ghMatchAt, ghHost, stripExact, h]

lemma ghMatchAt_gitAt (cs : List Char) :
    ghMatchAt ('g' :: 'i' :: 't' :: '@' :: cs) = none := by
  simp [ghMatchAt, ghHost, stripExact]

/-- Scanning an `https://`-headed URL finds the match at the host. -/
lemma ghScan_form_https (org tail repo : List Char) (ho : org ≠ [])
    (hslash : '/' ∉ org) (htail : ghTail tail = some repo) :
    ghScan ('h' :: 't' :: 't' :: 'p' :: 's' :: ':' :: '/' :: '/' ::
      (ghHost ++ '/' :: (org ++ '/' :: tail))) = some (org, repo) := by
  have hm := ghMatchAt_host '/' org tail (Or.inr rfl) ho hslash repo htail
  show ghScan ('h' :: 't' :: 't' :: 'p' :: 's' :: ':' :: '/' :: '/' :: 'g' ::
    'i' :: 't' :: 'h' :: 'u' :: 'b' :: '.' :: 'c' :: 'o' :: 'm' :: '/' ::
    (org ++ '/' :: tail)) = some (org, repo)
  rw [ghScan_skip _ _ (ghMatchAt_ne_g _ _ (by decide)),
      ghScan_skip _ _ (ghMatchAt_ne_g _ _ (by decide)),
      ghScan_skip _ _ (ghMatchAt_ne_g _ _ (by decide)),
      ghScan_skip _ _ (ghMatchAt_ne_g _ _ (by decide)),
      ghScan_skip _ _ (ghMatchAt_ne_g _ _ (by decide)),
      ghScan_skip _ _ (ghMatchAt_ne_g _ _ (by decide)),
      ghScan_skip _ _ (ghMatchAt_ne_g _ _ (by decide)),
      ghScan_skip _ _ (ghMatchAt_ne_g _ _ (by decide))]
  exact ghScan_hit _ _ _ hm

/-- Scanning a `git@`-headed URL finds the match at the host. -/
lemma ghScan_form_gitAt (org tail repo : List Char) (ho : org ≠ [])
    (hslash : '/' ∉ org) (htail : ghTail tail = some repo) :
    ghScan ('g' :: 'i' :: 't' :: '@' ::
      (ghHost ++ ':' :: (org ++ '/' :: tail))) = some (org, repo) := by
  have hm := ghMatchAt_host ':' org tail (Or.inl rfl) ho hslash repo htail
  show ghScan ('g' :: 'i' :: 't' :: '@' :: 'g' :: 'i' :: 't' :: 'h' :: 'u' ::
    'b' :: '.' :: 'c' :: 'o' :: 'm' :: ':' :: (org ++ '/' :: tail)) =
    some (org, repo)
  rw [ghScan_skip _ _ (ghMatchAt_gitAt _),
      ghScan_skip _ _ (ghMatchAt_ne_g _ _ (by decide)),
      ghScan_skip _ _ (ghMatchAt_ne_g _ _ (by decide)),
      ghScan_skip _ _ (ghMatchAt_ne_g _ _ (by decide))]
  exact ghScan_hit _ _ _ hm

/-- Scanning an `ssh://git@`-headed URL finds the match at the host. -/
lemma ghScan_form_ssh (org tail repo : List Char) (ho : org ≠ [])
    (hslash : '/' ∉ org) (htail : ghTail tail = some repo) :
    ghScan ('s' :: 's' :: 'h' :: ':' :: '/' :: '/' :: 'g' :: 'i' :: 't' ::
      '@' :: (ghHost ++ '/' :: (org ++ '/' :: tail))) = some (org, repo) := by
  have hm := ghMatchAt_host '/' org tail (Or.inr rfl) ho hslash repo htail
  show ghScan ('s' :: 's' :: 'h' :: ':' :: '/' :: '/' :: 'g' :: 'i' :: 't' ::
    '@' :: 'g' :: 'i' :: 't' :: 'h' :: 'u' :: 'b' :: '.' :: 'c' :: 'o' ::
    'm' :: '/' :: (org ++ '/' :: tail)) = some (org, repo)
  rw [ghScan_skip _ _ (ghMatchAt_ne_g _ _ (by decide)),
      ghScan_skip _ _ (ghMatchAt_ne_g _ _ (by decide)),
      ghScan_skip _ _ (ghMatchAt_ne_g _ _ (by decide)),
      ghScan_skip _ _ (ghMatchAt_ne_g _ _ (by decide)),
      ghScan_skip _ _ (ghMatchAt_ne_g _ _ (by decide)),
      ghScan_skip _ _ (ghMatchAt_ne_g _ _ (by decide)),
      ghScan_skip _ _ (ghMatchAt_gitAt _),
      ghScan_skip _ _ (ghMatchAt_ne_g _ _ (by decide)),
      ghScan_skip _ _ (ghMatchAt_ne_g _ _ (by decide)),
      ghScan_skip _ _ (ghMatchAt_ne_g _ _ (by decide))]
  exact ghScan_hit _ _ _ hm

/-- Normalization of the plain `https` form. -/
lemma normalize_form1 (org repo : String) (ho1 : org ≠ "")
    (ho2 : '/' ∉ org.data) (hr1 : repo ≠ "") (hr2 : '/' ∉ repo.data)
    (hr3 : ¬ endsGit repo.data) :
    normalizeGitHubUrl ("https://github.com/" ++ org ++ "/" ++ repo) =
      some ("https://github.com/" ++ org ++ "/" ++ repo) := by
  have ho : org.data ≠ [] := fun h => ho1 ((data_nil_iff org).mp h)
  have hr : repo.data ≠ [] := fun h => hr1 ((data_nil_iff repo).mp h)
  have htail : ghTail repo.data = some repo.data := by
    have h := ghTail_append repo.data hr hr2 hr3 [] (by decide)
    rwa [List.append_nil] at h
  have hdata : ("https://github.com/" ++ org ++ "/" ++ repo).data =
      'h' :: 't' :: 't' :: 'p' :: 's' :: ':' :: '/' :: '/' ::
        (ghHost ++ '/' :: (org.data ++ '/' :: repo.data)) := by
    simp only [String.data_append, List.append_assoc]
    rfl
  have hne : ("https://github.com/" ++ org ++ "/" ++ repo) ≠ "" := by
    intro he
    have h2 := (data_nil_iff _).mpr he
    rw [hdata] at h2
    simp at h2
  have hscan := ghScan_form_https org.data repo.data repo.data ho ho2 htail
  simp only [normalizeGitHubUrl]
  rw [if_neg hne, hdata, hscan]

/-- Normalization of the `https` form with a `.git` suffix. -/
lemma normalize_form2 (org repo : String) (ho1 : org ≠ "")
    (ho2 : '/' ∉ org.data) (hr1 : repo ≠ "") (hr2 : '/' ∉ repo.data)
    (hr3 : ¬ endsGit repo.data) :
    normalizeGitHubUrl ("https://github.com/" ++ org ++ "/" ++ repo ++ ".git") =
      some ("https://github.com/" ++ org ++ "/" ++ repo) := by
  have ho : org.data ≠ [] := fun h => ho1 ((data_nil_iff org).mp h)
  have hr : repo.data ≠ [] := fun h => hr1 ((data_nil_iff repo).mp h)
  have htail : ghTail (repo.data ++ ['.', 'g', 'i', 't']) = some repo.data :=
    ghTail_append repo.data hr hr2 hr3 ['.', 'g', 'i', 't'] (by decide)
  have hdata : ("https://github.com/" ++ org ++ "/" ++ repo ++ ".git").data =
      'h' :: 't' :: 't' :: 'p' :: 's' :: ':' :: '/' :: '/' ::
        (ghHost ++ '/' :: (org.data ++ '/' ::
          (repo.data ++ ['.', 'g', 'i', 't']))) := by
    simp only [String.data_append, List.append_assoc]
    rfl
  have hne : ("https://github.com/" ++ org ++ "/" ++ repo ++ ".git") ≠ "" := by
    intro he
    have h2 := (data_nil_iff _).mpr he
    rw [hdata] at h2
    simp at h2
  have hscan := ghScan_form_https org.data (repo.data ++ ['.', 'g', 'i', 't'])
    repo.data ho ho2 htail
  simp only [normalizeGitHubUrl]
  rw [if_neg hne, hdata, hscan]

/-- Normalization of the scp-like `git@` form. -/
lemma normalize_form3 (org repo : String) (ho1 : org ≠ "")
    (ho2 : '/' ∉ org.data) (hr1 : repo ≠ "") (hr2 : '/' ∉ repo.data)
    (hr3 : ¬ endsGit repo.data) :
    normalizeGitHubUrl ("git@github.com:" ++ org ++ "/" ++ repo ++ ".git") =
      some ("https://github.com/" ++ org ++ "/" ++ repo) := by
  have ho : org.data ≠ [] := fun h => ho1 ((data_nil_iff org).mp h)
  have hr : repo.data ≠ [] := fun h => hr1 ((data_nil_iff repo).mp h)
  have htail : ghTail (repo.data ++ ['.', 'g', 'i', 't']) = some repo.data :=
    ghTail_append repo.data hr hr2 hr3 ['.', 'g', 'i', 't'] (by decide)
  have hdata : ("git@github.com:" ++ org ++ "/" ++ repo ++ ".git").data =
      'g' :: 'i' :: 't' :: '@' ::
        (ghHost ++ ':' :: (org.data ++ '/' ::
          (repo.data ++ ['.', 'g', 'i', 't']))) := by
    simp only [String.data_append, List.append_assoc]
    rfl
  have hne : ("git@github.com:" ++ org ++ "/" ++ repo ++ ".git") ≠ "" := by
    intro he
    have h2 := (data_nil_iff _).mpr he
    rw [hdata] at h2
    simp at h2
  have hscan := ghScan_form_gitAt org.data (repo.data ++ ['.', 'g', 'i', 't'])
    repo.data ho ho2 htail
  simp only [normalizeGitHubUrl]
  rw [if_neg hne, hdata, hscan]

/-- Normalization of the `ssh://git@` form. -/
lemma normalize_form4 (org repo : String) (ho1 : org ≠ "")
    (ho2 : '/' ∉ org.data) (hr1 : repo ≠ "") (hr2 : '/' ∉ repo.data)
    (hr3 : ¬ endsGit repo.data) :
    normalizeGitHubUrl ("ssh://git@github.com/" ++ org ++ "/" ++ repo ++ ".git") =
      some ("https://github.com/" ++ org ++ "/" ++ repo) := by
  have ho : org.data ≠ [] := fun h => ho1 ((data_nil_iff org).mp h)
  have hr : repo.data ≠ [] := fun h => hr1 ((data_nil_iff repo).mp h)
  have htail : ghTail (repo.data ++ ['.', 'g', 'i', 't']) = some repo.data :=
    ghTail_append repo.data hr hr2 hr3 ['.', 'g', 'i', 't'] (by decide)
  have hdata : ("ssh://git@github.com/" ++ org ++ "/" ++ repo ++ ".git").data =
      's' :: 's' :: 'h' :: ':' :: '/' :: '/' :: 'g' :: 'i' :: 't' :: '@' ::
        (ghHost ++ '/' :: (org.data ++ '/' ::
          (repo.data ++ ['.', 'g', 'i', 't']))) := by
    simp only [String.data_append, List.append_assoc]
    rfl
  have hne : ("ssh://git@github.com/" ++ org ++ "/" ++ repo ++ ".git") ≠ "" := by
    intro he
    have h2 := (data_nil_iff _).mpr he
    rw [hdata] at h2
    simp at h2
  have hscan := ghScan_form_ssh org.data (repo.data ++ ['.', 'g', 'i', 't'])
    repo.data ho ho2 htail
  simp only [normalizeGitHubUrl]
  rw [if_neg hne, hdata, hscan]

/-! ## C6: the recognized raw forms normalize canonically -/

/-- C6: for well-formed org and repo path segments (nonempty, slash
free, repo not ending in a `.git` suffix that the regex would strip),
each of the four recognized raw forms normalizes to exactly
`https://github.com/<org>/<repo>`; the spec's concrete example holds,
and a URL without the org/repo-at-end shape yields `none` rather than
an error. -/
theorem normalize_recognized_forms (org repo : String) (ho1 : org ≠ "")
    (ho2 : '/' ∉ org.data) (hr1 : repo ≠ "") (hr2 : '/' ∉ repo.data)
    (hr3 : ¬ endsGit repo.data) :
    normalizeGitHubUrl ("https://github.com/" ++ org ++ "/" ++ repo) =
      some ("https://github.com/" ++ org ++ "/" ++ repo) ∧
    normalizeGitHubUrl ("https://github.com/" ++ org ++ "/" ++ repo ++ ".git") =
      some ("https://github.com/" ++ org ++ "/" ++ repo) ∧
    normalizeGitHubUrl ("git@github.com:" ++ org ++ "/" ++ repo ++ ".git") =
      some ("https://github.com/" ++ org ++ "/" ++ repo) ∧
    normalizeGitHubUrl ("ssh://git@github.com/" ++ org ++ "/" ++ repo ++ ".git") =
      some ("https://github.com/" ++ org ++ "/" ++ repo) ∧
    normalizeGitHubUrl "git@github.com:acme/widgets.git" =
      some "https://github.com/acme/widgets" ∧
    normalizeGitHubUrl "https://github.com/acme" = none :=
  ⟨normalize_form1 org repo ho1 ho2 hr1 hr2 hr3,
   normalize_form2 org repo ho1 ho2 hr1 hr2 hr3,
   normalize_form3 org repo ho1 ho2 hr1 hr2 hr3,
   normalize_form4 org repo ho1 ho2 hr1 hr2 hr3,
   by decide, by decide⟩

/-- Witness for C6 at `acme` / `widgets`, through the scp-like form. -/
theorem normalize_recognized_forms_inst :
    normalizeGitHubUrl ("git@github.com:" ++ "acme" ++ "/" ++ "widgets" ++ ".git") =
      some ("https://github.com/" ++ "acme" ++ "/" ++ "widgets") :=
  (normalize_recognized_forms "acme" "widgets" (by decide) (by decide)
    (by decide) (by decide) (by decide)).2.2.1

/-! ## C7: idempotence of normalization -/

/-- C7 counterexample: `https://github.com/acme/widgets.git` is an
already-normalized URL (it is `normalizeGitHubUrl`'s own output on
`https://github.com/acme/widgets.git.git`) of the form
`https://github.com/<org>/<repo>`, yet normalizing it again changes it
— so `normalize (normalize u) = normalize u` fails at that input. -/
theorem normalize_idem_cex :
    normalizeGitHubUrl "https://github.com/acme/widgets.git.git" =
      some "https://github.com/acme/widgets.git" ∧
    normalizeGitHubUrl "https://github.com/acme/widgets.git" =
      some "https://github.com/acme/widgets" ∧
    normalizeGitHubUrl "https://github.com/acme/widgets.git" ≠
      some "https://github.com/acme/widgets.git" :=
  ⟨by decide, by decide, by decide⟩

/-- C7 amended: normalization is idempotent on canonical URLs whose
repo segment does not end in `.git`: for such org/repo the
already-normalized `https://github.com/<org>/<repo>` is returned
unchanged. -/
theorem normalize_idem_amended (org repo : String) (ho1 : org ≠ "")
    (ho2 : '/' ∉ org.data) (hr1 : repo ≠ "") (hr2 : '/' ∉ repo.data)
    (hr3 : ¬ endsGit repo.data) :
    normalizeGitHubUrl ("https://github.com/" ++ org ++ "/" ++ repo) =
      some ("https://github.com/" ++ org ++ "/" ++ repo) :=
  normalize_form1 org repo ho1 ho2 hr1 hr2 hr3

/-- Witness for the amended C7 at `acme` / `widgets`. -/
theorem normalize_idem_amended_inst :
    normalizeGitHubUrl ("https://github.com/" ++ "acme" ++ "/" ++ "widgets") =
      some ("https://github.com/" ++ "acme" ++ "/" ++ "widgets") :=
  normalize_idem_amended "acme" "widgets" (by decide) (by decide) (by decide)
    (by decide) (by decide)

/-! ## Path lemmas for C8 -/

lemma split_slash_cons (cs : List Char) :
    splitOnSlash ('/' :: cs) = [] :: splitOnSlash cs := by
  simp [splitOnSlash]

lemma split_join_aux : ∀ (s : List Char), '/' ∉ s → ∀ cs,
    splitOnSlash (s ++ '/' :: cs) = s :: splitOnSlash cs := by
  intro s
  induction s with
  | nil => intro _ cs; simp [splitOnSlash]
  | cons c cs' ih =>
    intro h cs
    have hc : c ≠ '/' := fun he => h (he ▸ List.mem_cons_self _ _)
    have ih2 := ih (fun hm => h (List.mem_cons_of_mem _ hm)) cs
    simp [splitOnSlash, hc, ih2]

lemma split_noslash : ∀ (s : List Char), '/' ∉ s → splitOnSlash s = [s] := by
  intro s
  induction s with
  | nil => intro _; rfl
  | cons c cs ih =>
    intro h
    have hc : c ≠ '/' := fun he => h (he ▸ List.mem_cons_self _ _)
    have ih2 := ih (fun hm => h (List.mem_cons_of_mem _ hm))
    simp [splitOnSlash, hc, ih2]

lemma joinSegs_nil : joinSegs [] = [] := rfl

lemma joinSegs_single (s : List Char) : joinSegs [s] = s := by
  simp [joinSegs, List.intercalate]

lemma joinSegs_cons2 (s t : List Char) (rest : List (List Char)) :
    joinSegs (s :: t :: rest) = s ++ '/' :: joinSegs (t :: rest) := by
  simp [joinSegs, List.intercalate, List.intersperse]

lemma filterSplit_join : ∀ (segs : List (List Char)),
    (∀ s ∈ segs, s ≠ [] ∧ '/' ∉ s) →
    (splitOnSlash (joinSegs segs)).filter (fun s => s != []) = segs := by
  intro segs
  induction segs with
  | nil => intro _; rfl
  | cons s rest ih =>
    intro h
    obtain ⟨hs1, hs2⟩ := h s (List.mem_cons_self _ _)
    cases rest with
    | nil =>
      rw [joinSegs_single, split_noslash s hs2]
      simp [List.filter_cons, hs1]
    | cons t rest' =>
      rw [joinSegs_cons2, split_join_aux s hs2]
      have ih2 := ih (fun x hx => h x (List.mem_cons_of_mem _ hx))
      simp [List.filter_cons, hs1, ih2]

lemma split_join_full : ∀ (segs : List (List Char)), segs ≠ [] →
    (∀ s ∈ segs, s ≠ [] ∧ '/' ∉ s) →
    splitOnSlash (joinSegs segs) = segs := by
  intro segs
  induction segs with
  | nil => intro h; exact absurd rfl h
  | cons s rest ih =>
    intro _ h
    obtain ⟨hs1, hs2⟩ := h s (List.mem_cons_self _ _)
    cases rest with
    | nil => rw [joinSegs_single, split_noslash s hs2]
    | cons t rest' =>
      rw [joinSegs_cons2, split_join_aux s hs2,
        ih (by simp) (fun x hx => h x (List.mem_cons_of_mem _ hx))]

lemma filterSplit_join_append : ∀ (segs : List (List Char)),
    (∀ s ∈ segs, s ≠ [] ∧ '/' ∉ s) → ∀ cs,
    (splitOnSlash (joinSegs segs ++ '/' :: cs)).filter (fun s => s != []) =
      segs ++ (splitOnSlash cs).filter (fun s => s != []) := by
  intro segs
  induction segs with
  | nil =>
    intro _ cs
    rw [joinSegs_nil, List.nil_append, split_slash_cons]
    simp [List.filter_cons]
  | cons s rest ih =>
    intro h cs
    obtain ⟨hs1, hs2⟩ := h s (List.mem_cons_self _ _)
    cases rest with
    | nil =>
      rw [joinSegs_single, split_join_aux s hs2]
      simp [List.filter_cons, hs1]
    | cons t rest' =>
      rw [joinSegs_cons2, List.append_assoc, List.cons_append,
        split_join_aux s hs2]
      have ih2 := ih (fun x hx => h x (List.mem_cons_of_mem _ hx)) cs
      simp [List.filter_cons, hs1, ih2]

lemma relParts_self_append : ∀ (f t : List (List Char)),
    relParts f (f ++ t) = t := by
  intro f
  induction f with
  | nil => intro t; simp [relParts]
  | cons s fs ih => intro t; simp [relParts, ih]

lemma mem_joinSegs : ∀ (segs : List (List Char)) (c : Char),
    c ∈ joinSegs segs → (∃ s ∈ segs, c ∈ s) ∨ c = '/' := by
  intro segs
  induction segs with
  | nil => intro c hc; rw [joinSegs_nil] at hc; exact absurd hc (by simp)
  | cons s rest ih =>
    intro c hc
    cases rest with
    | nil =>
      rw [joinSegs_single] at hc
      exact Or.inl ⟨s, List.mem_cons_self _ _, hc⟩
    | cons t rest' =>
      rw [joinSegs_cons2] at hc
      rcases List.mem_append.mp hc with h | h
      · exact Or.inl ⟨s, List.mem_cons_self _ _, h⟩
      · rcases List.mem_cons.mp h with h2 | h2
        · exact Or.inr h2
        · rcases ih c h2 with ⟨s', hs', hcs'⟩ | h3
          · exact Or.inl ⟨s', List.mem_cons_of_mem _ hs', hcs'⟩
          · exact Or.inr h3

lemma map_self_chars (l : List Char) (f : Char → Char)
    (h : ∀ c ∈ l, f c = c) : l.map f = l := by
  induction l with
  | nil => rfl
  | cons c cs ih =>
    rw [List.map_cons, h c (List.mem_cons_self _ _),
      ih (fun x hx => h x (List.mem_cons_of_mem _ hx))]

lemma no_backslash_map (l : List Char) :
    '\\' ∉ l.map (fun c => if c = '\\' then '/' else c) := by
  intro hm
  rcases List.mem_map.mp hm with ⟨c, _, hc⟩
  by_cases h : c = '\\'
  · rw [if_pos h] at hc
    exact absurd hc (by decide)
  · rw [if_neg h] at hc
    exact h hc

/-! ## C8: relative-path invariants -/

/-- C8: the computed relative path never contains a backslash (for any
inputs at all, by the global replacement), and for a file lying under
the repository root — resolved absolute paths made of well-formed
segments — it neither starts with `/` nor contains a `..` segment. -/
theorem relativePath_invariants :
    (∀ filePath gitRoot : String,
      '\\' ∉ (getRelativePath filePath gitRoot).data) ∧
    (∀ (rootSegs extraSegs : List (List Char)) (gitRoot filePath : String),
      (∀ s ∈ rootSegs, s ≠ [] ∧ '/' ∉ s) →
      (∀ s ∈ extraSegs, s ≠ [] ∧ '/' ∉ s ∧ '\\' ∉ s ∧ s ≠ ['.', '.']) →
      gitRoot.data = '/' :: joinSegs rootSegs →
      filePath.data = gitRoot.data ++ '/' :: joinSegs extraSegs →
      (getRelativePath filePath gitRoot).data.head? ≠ some '/' ∧
      ['.', '.'] ∉ splitOnSlash (getRelativePath filePath gitRoot).data) := by
  constructor
  · intro filePath gitRoot
    exact no_backslash_map _
  · intro rootSegs extraSegs gitRoot filePath hseg1 hseg2 hroot hfile
    have hseg2' : ∀ s ∈ extraSegs, s ≠ [] ∧ '/' ∉ s :=
      fun s hs => ⟨(hseg2 s hs).1, (hseg2 s hs).2.1⟩
    have hrootSplit :
        (splitOnSlash gitRoot.data).filter (fun s => s != []) = rootSegs := by
      rw [hroot, split_slash_cons]
      have h1 := filterSplit_join rootSegs hseg1
      simp [List.filter_cons, h1]
    have hfileSplit :
        (splitOnSlash filePath.data).filter (fun s => s != []) =
          rootSegs ++ extraSegs := by
      rw [hfile, hroot, List.cons_append, split_slash_cons]
      have h1 := filterSplit_join_append rootSegs hseg1 (joinSegs extraSegs)
      have h2 := filterSplit_join extraSegs hseg2'
      simp [List.filter_cons, h1, h2]
    have hval : pathRelative gitRoot.data filePath.data = joinSegs extraSegs := by
      simp only [pathRelative]
      rw [hrootSplit, hfileSplit, relParts_self_append]
    have hdata : (getRelativePath filePath gitRoot).data = joinSegs extraSegs := by
      simp only [getRelativePath]
      rw [hval]
      apply map_self_chars
      intro c hc
      rcases mem_joinSegs extraSegs c hc with ⟨s, hs, hcs⟩ | rfl
      · have hb := (hseg2 s hs).2.2.1
        have hcb : c ≠ '\\' := fun he => hb (he ▸ hcs)
        rw [if_neg hcb]
      · rw [if_neg (by decide : ('/' : Char) ≠ '\\')]
    constructor
    · rw [hdata]
      cases extraSegs with
      | nil => rw [joinSegs_nil]; simp
      | cons s rest =>
        obtain ⟨hs1, hs2, _, _⟩ := hseg2 s (List.mem_cons_self _ _)
        rcases List.exists_cons_of_ne_nil hs1 with ⟨c, s', rfl⟩
        have hcn : c ≠ '/' := fun he => hs2 (he ▸ List.mem_cons_self _ _)
        cases rest with
        | nil => rw [joinSegs_single]; simp [hcn]
        | cons t rest' => rw [joinSegs_cons2]; simp [hcn]
    · rw [hdata]
      cases extraSegs with
      | nil => rw [joinSegs_nil]; decide
      | cons s rest =>
        rw [split_join_full (s :: rest) (by simp) hseg2']
        intro hm
        exact (hseg2 _ hm).2.2.2 rfl

/-- Witness for C8 at `/repo` and `/repo/src/a.ts`. -/
theorem relativePath_invariants_inst :
    (getRelativePath "/repo/src/a.ts" "/repo").data.head? ≠ some '/' ∧
    ['.', '.'] ∉ splitOnSlash (getRelativePath "/repo/src/a.ts" "/repo").data :=
  relativePath_invariants.2 [['r', 'e', 'p', 'o']]
    [['s', 'r', 'c'], ['a', '.', 't', 's']] "/repo" "/repo/src/a.ts"
    (by decide) (by decide) (by decide) (by decide)

end OpenInGithub
